import Mathlib

/-!
Shallow embedding of the brain-rs NEAT core (src/crossover.rs, src/specie.rs,
src/genome/mod.rs, src/genome/recurrent.rs) and proofs about it.

Connections are modelled by a single concrete record `Brain.Conn` carrying the
fields shared by every connection flavor of the source (`inno`, `from`, `to`,
`weight`, `enabled`); `f64` parameters are modelled by `ℚ`.  The RNG is
modelled as a deterministic stream: a state `RngS` holds a boolean stream for
`happens(event)` draws and a natural-number stream for `random_range`-style
draws, together with a cursor that advances once per draw, mirroring how the
source threads one `&mut rng` through every stochastic call.
-/

namespace Brain

/-- The event-probability surface of src/random.rs (re-exported through
`Happens`); only the constructors matter for the model. -/
inductive EvolutionEvent where
  | MutateWeight
  | MutateConnection
  | MutateBisection
  | PickLEQ
  | KeepDisabled
  | NewDisabled
deriving DecidableEq, Repr

/-- Deterministic model of an RNG: `hap i e` is the outcome of the `i`-th
draw if that draw is a `happens e` check, `nat i` its outcome if it is an
integer draw.  `i` is the cursor, advanced once per draw. -/
structure RngS where
  hap : Nat → EvolutionEvent → Bool
  nat : Nat → Nat
  i : Nat

/-- One `rng.happens(e)` call: consume one draw. -/
def happens (e : EvolutionEvent) (s : RngS) : Bool × RngS :=
  (s.hap s.i e, { s with i := s.i + 1 })

/-- One integer draw (used by `random_range` / `choose`). -/
def draw (s : RngS) : Nat × RngS :=
  (s.nat s.i, { s with i := s.i + 1 })

/-- Connection record: the fields common to every connection flavor
(src/genome/recurrent.rs `CTRConnection`, src/genome/connection.rs flavors).
`from`/`to` are renamed `cfrom`/`cto` (`from` is a Lean keyword). -/
structure Conn where
  inno : Nat
  cfrom : Nat
  cto : Nat
  weight : ℚ
  enabled : Bool
deriving DecidableEq, Repr

instance : Inhabited Conn := ⟨⟨0, 0, 0, 0, true⟩⟩

/-- Trait-documented `disable` (src/genome/mod.rs lines 58-59:
"unconditionally disable this connection"): set `enabled = false`. -/
def Conn.disable (c : Conn) : Conn := { c with enabled := false }

/-- The `CTRConnection::disable` implementation of src/genome/recurrent.rs
lines 48-50, verbatim: it assigns `enabled = true`. -/
def CTRConnection.disable (c : Conn) : Conn := { c with enabled := true }

/-- `CTRConnection::param_diff` (src/genome/recurrent.rs lines 56-61):
absolute difference of weights. -/
def Conn.param_diff (c other : Conn) : ℚ := |c.weight - other.weight|

/-- Equality of connections up to the `enabled` flag ("modulo enabled"). -/
def eqModE (a b : Conn) : Prop :=
  a.inno = b.inno ∧ a.cfrom = b.cfrom ∧ a.cto = b.cto ∧ a.weight = b.weight

instance : DecidablePred fun p : Conn × Conn => eqModE p.1 p.2 := by
  intro p; unfold eqModE; infer_instance

instance (a b : Conn) : Decidable (eqModE a b) := by
  unfold eqModE; infer_instance

/-- `pick_gene` (src/crossover.rs lines 136-165).  When `opt` is present a
`PickLEQ` draw chooses between the two parents; then the disable check runs
with Rust's short-circuit evaluation: `KeepDisabled` is only consulted when
`base` or the present `opt` is disabled, and `NewDisabled` only when that
first disjunct came out false. -/
def pick_gene (base : Conn) (opt : Option Conn) (rng : RngS) : Conn × RngS :=
  let pick :=
    match opt with
    | some r =>
      let (b, rng') := happens .PickLEQ rng
      (if b then r else base, rng')
    | none => (base, rng)
  let conn := pick.1
  let rng1 := pick.2
  let dis :=
    if !base.enabled || (match opt with | some r => !r.enabled | none => false) then
      let (kd, rng2) := happens .KeepDisabled rng1
      if kd then (true, rng2)
      else happens .NewDisabled rng2
    else happens .NewDisabled rng1
  (if dis.1 then conn.disable else conn, dis.2)

/-- Main loop of `disjoint_excess_count` (src/crossover.rs lines 24-52):
`lc`/`rc` are the connections currently held, `lt`/`rt` the unconsumed rest of
each iterator, `d` the running disjoint count.  Returns
`(disjoint, excess)` where excess already includes the `excess_passed`
correction and the leftover iterator counts of lines 54-57. -/
def dec_go (lc rc : Conn) (lt rt : List Conn) (d : Nat) : Nat × Nat :=
  if lc.inno = rc.inno then
    match lt with
    | [] => (d, rt.length)
    | lc' :: lt' =>
      match rt with
      | [] => (d, lt'.length + 1)
      | rc' :: rt' => dec_go lc' rc' lt' rt' d
  else if rc.inno < lc.inno then
    match rt with
    | [] => (d + 1, lt.length + 1)
    | rc' :: rt' => dec_go lc rc' lt rt' (d + 1)
  else
    match lt with
    | [] => (d + 1, rt.length + 1)
    | lc' :: lt' => dec_go lc' rc lt' rt (d + 1)
termination_by lt.length + rt.length

/-- `disjoint_excess_count` (src/crossover.rs lines 9-58).  The source
returns the two counters as `f64`; they are natural numbers. -/
def disjoint_excess_count (l r : List Conn) : Nat × Nat :=
  match l, r with
  | [], r => (0, r.length)
  | _ :: lt, [] => (0, lt.length + 1)
  | lc :: lt, rc :: rt => dec_go lc rc lt rt 0

/-- Main loop of `avg_param_diff` (src/crossover.rs lines 77-106), with the
running `diff` accumulator and match `count`. -/
def apd_go (lc rc : Conn) (lt rt : List Conn) (diff count : ℚ) : ℚ × ℚ :=
  if lc.inno = rc.inno then
    match lt with
    | [] => (diff + lc.param_diff rc, count + 1)
    | lc' :: lt' =>
      match rt with
      | [] => (diff + lc.param_diff rc, count + 1)
      | rc' :: rt' => apd_go lc' rc' lt' rt' (diff + lc.param_diff rc) (count + 1)
  else if rc.inno < lc.inno then
    match rt with
    | [] => (diff, count)
    | rc' :: rt' => apd_go lc rc' lt rt' diff count
  else
    match lt with
    | [] => (diff, count)
    | lc' :: lt' => apd_go lc' rc lt' rt diff count
termination_by lt.length + rt.length

/-- `avg_param_diff` (src/crossover.rs lines 61-113). -/
def avg_param_diff (l r : List Conn) : ℚ :=
  match l, r with
  | [], _ => 0
  | _, [] => 0
  | lc :: lt, rc :: rt =>
    let dc := apd_go lc rc lt rt 0 0
    if dc.2 = 0 then 0 else dc.1 / dc.2

/-- The `CTRConnection` compatibility coefficients
(src/genome/recurrent.rs lines 36-38). -/
def EXCESS_COEFFICIENT : ℚ := 1
def DISJOINT_COEFFICIENT : ℚ := 1
def PARAM_COEFFICIENT : ℚ := 2 / 5

/-- `delta` (src/crossover.rs lines 115-134). -/
def delta (l r : List Conn) : ℚ :=
  let l_size : ℚ := l.length
  let r_size : ℚ := r.length
  let fac := if max l_size r_size < 20 then 1 else max l_size r_size
  if l_size = 0 ∨ r_size = 0 then
    EXCESS_COEFFICIENT * max l_size r_size / fac
  else
    let de := disjoint_excess_count l r
    (DISJOINT_COEFFICIENT * de.1 + EXCESS_COEFFICIENT * de.2) / fac
      + PARAM_COEFFICIENT * avg_param_diff l r

/-- The tail arms of `crossover_eq` (src/crossover.rs lines 181-189): once one
side is exhausted the remaining connections of the other are pushed through
`pick_gene(conn, None, rng)` in order. -/
def mapPick : List Conn → RngS → List Conn × RngS
  | [], rng => ([], rng)
  | c :: t, rng =>
    let (c', rng1) := pick_gene c none rng
    let (t', rng2) := mapPick t rng1
    (c' :: t', rng2)

/-- `crossover_eq` (src/crossover.rs lines 168-210): merge walk over the two
index cursors, expressed over the unconsumed suffixes. -/
def crossover_eq : List Conn → List Conn → RngS → List Conn × RngS
  | [], [], rng => ([], rng)
  | [], r@(_ :: _), rng => mapPick r rng
  | l@(_ :: _), [], rng => mapPick l rng
  | lc :: lt, rc :: rt, rng =>
    if lc.inno = rc.inno then
      let pk := pick_gene lc (some rc) rng
      let rest := crossover_eq lt rt pk.2
      (pk.1 :: rest.1, rest.2)
    else if lc.inno < rc.inno then
      let pk := pick_gene lc none rng
      let rest := crossover_eq lt (rc :: rt) pk.2
      (pk.1 :: rest.1, rest.2)
    else
      let pk := pick_gene rc none rng
      let rest := crossover_eq (lc :: lt) rt pk.2
      (pk.1 :: rest.1, rest.2)
termination_by l r => l.length + r.length

/-- `crossover_ne` (src/crossover.rs lines 213-241): iterate over the fitter
parent `l`; the persistent catch-up index `r_idx` into `r` is expressed by
passing the dropped suffix of `r` to the recursive call. -/
def crossover_ne : List Conn → List Conn → RngS → List Conn × RngS
  | [], _, rng => ([], rng)
  | lc :: lt, r, rng =>
    let r' := r.dropWhile fun c => c.inno < lc.inno
    let opt : Option Conn :=
      match r' with
      | rc :: _ => if rc.inno = lc.inno then some rc else none
      | [] => none
    let pk := pick_gene lc opt rng
    let rest := crossover_ne lt r' pk.2
    (pk.1 :: rest.1, rest.2)

/-- `crossover` (src/crossover.rs lines 245-259): dispatch on the fitness
ordering, then `sort_by_key(|c| c.inno())` (a stable sort, modelled by
`List.mergeSort`). -/
def crossover (l r : List Conn) (l_fit : Ordering) (rng : RngS) :
    List Conn × RngS :=
  let usort :=
    match l_fit with
    | .eq => crossover_eq l r rng
    | .lt => crossover_ne r l rng
    | .gt => crossover_ne l r rng
  (usort.1.mergeSort fun a b => a.inno ≤ b.inno, usort.2)

/-- `InnoGen` (src/specie.rs lines 13-16); the `FxHashMap` is modelled as an
association list (keys are inserted at most once, so lookup agrees). -/
structure InnoGen where
  head : Nat
  seen : List ((Nat × Nat) × Nat)
deriving DecidableEq, Repr

/-- `InnoGen::new` (src/specie.rs lines 19-24). -/
def InnoGen.new (head : Nat) : InnoGen := ⟨head, []⟩

/-- `InnoGen::path` (src/specie.rs lines 26-37): return the recorded ID of a
seen pair, otherwise assign the current head, advance it, and record the
pair. -/
def InnoGen.path (s : InnoGen) (v : Nat × Nat) : Nat × InnoGen :=
  match s.seen.lookup v with
  | some n => (n, s)
  | none => (s.head, ⟨s.head + 1, (v, s.head) :: s.seen⟩)

/-- `CTRNode` (src/genome/recurrent.rs lines 18-24). -/
inductive CTRNode where
  | Sensory
  | Action
  | Bias (b : ℚ)
  | Internal
deriving DecidableEq, Repr

/-- `CTRGenome` (src/genome/recurrent.rs lines 84-90). -/
structure GenomeM where
  sensory : Nat
  action : Nat
  nodes : List CTRNode
  connections : List Conn
deriving DecidableEq, Repr

instance : Inhabited GenomeM := ⟨⟨0, 0, [], []⟩⟩

/-- `IteratorRandom::choose` over a list of candidates, modelled as one
integer draw selecting an index (`none` on an empty candidate list, with no
draw consumed). -/
def choose (l : List Nat) (rng : RngS) : Option (Nat × RngS) :=
  match l with
  | [] => none
  | _ :: _ =>
    let (d, rng') := draw rng
    some (l.getD (d % l.length) 0, rng')

/-- The retry loop of `CTRGenome::gen_connection_path`
(src/genome/recurrent.rs lines 98-120): pick an unsaturated `from`, compute
the saturated `to`-set, pick an open `to` or mark `from` saturated and retry.
The loop runs at most once per node plus a final failing pick, so the fuel
`n + 1` supplied by `gen_connection_path` is never exhausted. -/
def gen_path_loop (n : Nat) (conns : List Conn) :
    List Nat → RngS → Nat → Option ((Nat × Nat) × RngS)
  | _, _, 0 => none
  | saturated, rng, fuel + 1 =>
    match choose ((List.range n).filter fun f => ¬ saturated.contains f) rng with
    | none => none
    | some (f, rng1) =>
      let exclude := conns.filterMap fun c => if c.cfrom = f then some c.cto else none
      match choose ((List.range n).filter fun t => ¬ exclude.contains t) rng1 with
      | some (t, rng2) => some ((f, t), rng2)
      | none => gen_path_loop n conns (f :: saturated) rng1 fuel

/-- `CTRGenome::gen_connection_path` (src/genome/recurrent.rs lines 98-120). -/
def gen_connection_path (g : GenomeM) (rng : RngS) :
    Option ((Nat × Nat) × RngS) :=
  gen_path_loop g.nodes.length g.connections [] rng (g.nodes.length + 1)

/-- Outcome of a mutation call: either the updated genome (with registry and
RNG) or a Rust `panic!` with its message.  A panic aborts; it is not a value
the caller receives. -/
inductive MutOut where
  | ok (g : GenomeM) (ig : InnoGen) (rng : RngS)
  | panicked (msg : String)

/-- The connection list of an `ok` outcome. -/
def MutOut.conns? : MutOut → Option (List Conn)
  | .ok g _ _ => some g.connections
  | .panicked _ => none

/-- Whether the outcome is a panic. -/
def MutOut.isPanic : MutOut → Bool
  | .ok _ _ _ => false
  | .panicked _ => true

/-- `CTRGenome::mutate_connection` (src/genome/recurrent.rs lines 163-175):
append a connection on a generated open path with a registry-assigned ID,
weight 1, enabled; `panic!` when no path can be generated.  (The trait
default of src/genome/mod.rs lines 122-128 has the same shape.) -/
def GenomeM.mutate_connection (g : GenomeM) (rng : RngS) (ig : InnoGen) :
    MutOut :=
  match gen_connection_path g rng with
  | some ((f, t), rng') =>
    let (inno, ig') := ig.path (f, t)
    .ok { g with connections := g.connections ++ [⟨inno, f, t, 1, true⟩] } ig' rng'
  | none => .panicked "connections on genome are fully saturated"

/-- `Specie` (src/specie.rs lines 101-105), reduced to its member list of
`(genome, fitness)` pairs; the representative is not consulted by the
operations modelled here. -/
structure SpecieM where
  members : List (GenomeM × ℚ)

/-- `Specie::fit_adjusted` (src/specie.rs lines 134-137). -/
def SpecieM.fit_adjusted (s : SpecieM) : ℚ :=
  s.members.foldl (fun acc m => acc + m.2 / (s.members.length : ℚ)) 0

/-- `f64::round`: round half away from zero. -/
def roundAway (q : ℚ) : ℤ :=
  if 0 ≤ q then ⌊q + 1 / 2⌋ else ⌈q - 1 / 2⌉

/-- Rust `as usize` on a rounded `f64`: negative values clamp to 0. -/
def ratToUsize (q : ℚ) : Nat := (roundAway q).toNat

/-- The allocation loop of `population_alloc` (src/specie.rs lines 260-271):
per species in fitness order, tentatively allocate
`round(scaled * fit / total)`; accept while the running total stays strictly
below `population`, otherwise hand the remainder to the species reached and
stop. -/
def alloc_loop (population : Nat) (scaled total : ℚ) :
    List ℚ → Nat → List Nat
  | [], _ => []
  | fit :: rest, size_acc =>
    let s_pop := ratToUsize (scaled * fit / total)
    if size_acc + s_pop < population then
      s_pop :: alloc_loop population scaled total rest (size_acc + s_pop)
    else
      [population - size_acc]

/-- `population_alloc` (src/specie.rs lines 244-273), returning the per-species
sizes in allocation order (the source keys them by species representative). -/
def population_alloc (species : List SpecieM) (population : Nat) (top_p : ℚ) :
    List Nat :=
  let fits := (species.map SpecieM.fit_adjusted).mergeSort fun l r => r ≤ l
  let population_scaled := (population : ℚ) / top_p
  let fit_total := fits.foldl (· + ·) 0
  alloc_loop population population_scaled fit_total fits 0

/-- `uniq_2` (src/specie.rs lines 81-99): two index draws; on a collision the
second index is shifted by one, wrapping to the front. -/
def uniq_2 (pool : List (GenomeM × ℚ)) (rng : RngS) :
    Option (((GenomeM × ℚ) × (GenomeM × ℚ)) × RngS) :=
  if pool.length < 2 then none
  else
    let (ld, rng1) := draw rng
    let (rd, rng2) := draw rng1
    let l := ld % pool.length
    let r := rd % pool.length
    if l = r then
      if r + 1 = pool.length then some ((pool.getD l default, pool.getD 0 default), rng2)
      else some ((pool.getD l default, pool.getD (r + 1) default), rng2)
    else some ((pool.getD l default, pool.getD r default), rng2)

/-- `partial_cmp(&r).unwrap()` on finite fitnesses. -/
def cmpQ (a b : ℚ) : Ordering :=
  if a < b then .lt else if a = b then .eq else .gt

/-- `CTRGenome::reproduce_with` (src/genome/recurrent.rs lines 215-253):
crossover the connection lists, then rebuild the node list (sensory, action,
bias, then enough internal nodes to cover the largest endpoint). -/
def GenomeM.reproduce_with (g other : GenomeM) (self_fit : Ordering)
    (rng : RngS) : GenomeM × RngS :=
  let (connections, rng') := crossover g.connections other.connections self_fit rng
  let nodes_size := connections.foldl (fun prev c => max prev (max c.cfrom c.cto)) 0
  let nodes :=
    List.replicate g.sensory CTRNode.Sensory
      ++ List.replicate g.action CTRNode.Action
      ++ [CTRNode.Bias 1]
      ++ List.replicate (nodes_size - (g.sensory + g.action)) CTRNode.Internal
  ({ sensory := g.sensory, action := g.action, nodes := nodes,
     connections := connections }, rng')

/-- The type of `maybe_mutate` (called at src/specie.rs lines 157 and 181);
its definition lives outside src/, so reproduction is parameterised over it. -/
def MutFun : Type :=
  GenomeM → RngS → InnoGen → Except String (GenomeM × RngS × InnoGen)

/-- The `while pop.len() < size` loop of `Specie::reproduce_copy`
(src/specie.rs lines 178-183): choose a member uniformly, clone it, mutate,
push. -/
def copy_loop (members : List (GenomeM × ℚ)) (mm : MutFun) :
    Nat → RngS → InnoGen → Except String (List GenomeM × RngS × InnoGen)
  | 0, rng, ig => .ok ([], rng, ig)
  | n + 1, rng, ig =>
    let (d, rng1) := draw rng
    let src := (members.getD (d % members.length) default).1
    match mm src rng1 ig with
    | .error e => .error e
    | .ok (g, rng2, ig2) =>
      match copy_loop members mm n rng2 ig2 with
      | .error e => .error e
      | .ok (rest, rng3, ig3) => .ok (g :: rest, rng3, ig3)

/-- `Specie::reproduce_copy` (src/specie.rs lines 164-186). -/
def reproduce_copy (members : List (GenomeM × ℚ)) (size : Nat) (mm : MutFun)
    (rng : RngS) (ig : InnoGen) :
    Except String (List GenomeM × RngS × InnoGen) :=
  if size = 0 then .ok ([], rng, ig)
  else if members.isEmpty then .error "too few members to copy"
  else copy_loop members mm size rng ig

/-- The `while pop.len() < size` loop of `Specie::reproduce_crossover`
(src/specie.rs lines 153-159): draw a distinct pair, cross them under their
fitness comparison, mutate the child, push.  The `unwrap` on `uniq_2` is
unreachable under the caller's `len < 2` guard and modelled as an error. -/
def crossover_loop (members : List (GenomeM × ℚ)) (mm : MutFun) :
    Nat → RngS → InnoGen → Except String (List GenomeM × RngS × InnoGen)
  | 0, rng, ig => .ok ([], rng, ig)
  | n + 1, rng, ig =>
    match uniq_2 members rng with
    | none => .error "unwrap on empty uniq_2"
    | some ((l, r), rng1) =>
      let (child, rng2) := l.1.reproduce_with r.1 (cmpQ l.2 r.2) rng1
      match mm child rng2 ig with
      | .error e => .error e
      | .ok (g, rng3, ig3) =>
        match crossover_loop members mm n rng3 ig3 with
        | .error e => .error e
        | .ok (rest, rng4, ig4) => .ok (g :: rest, rng4, ig4)

/-- `Specie::reproduce_crossover` (src/specie.rs lines 139-162). -/
def reproduce_crossover (members : List (GenomeM × ℚ)) (size : Nat)
    (mm : MutFun) (rng : RngS) (ig : InnoGen) :
    Except String (List GenomeM × RngS × InnoGen) :=
  if size = 0 then .ok ([], rng, ig)
  else if members.length < 2 then .error "too few members to crossover"
  else crossover_loop members mm size rng ig

/-- `Specie::reproduce` (src/specie.rs lines 188-228): seed the offspring
with a clone of `self.last().unwrap().0`, then fill the remaining quota with
copy reproduction (a quarter, with the fallbacks of lines 209-214) and
crossover reproduction. -/
def SpecieM.reproduce (s : SpecieM) (size : Nat) (ig : InnoGen) (rng : RngS)
    (mm : MutFun) : Except String (List GenomeM × InnoGen × RngS) :=
  if size = 0 then .ok ([], ig, rng)
  else if s.members.isEmpty then .error "too few members to reproduce"
  else
    match s.members.getLast? with
    | none => .error "too few members to reproduce"
    | some lastMember =>
      let pop0 := [lastMember.1]
      if size = 1 then .ok (pop0, ig, rng)
      else
        let size1 := size - 1
        let sc := size1 / 4
        let size_copy := if sc = 0 ∨ s.members.length = 1 then size1 else sc
        match reproduce_copy s.members size_copy mm rng ig with
        | .error e => .error e
        | .ok (copies, rng1, ig1) =>
          let size_crossover := size1 - size_copy
          match reproduce_crossover s.members size_crossover mm rng1 ig1 with
          | .error e => .error e
          | .ok (crosses, rng2, ig2) =>
            .ok (pop0 ++ copies ++ crosses, ig2, rng2)

/-- `SPECIE_THRESHOLD` (src/specie.rs line 316). -/
def SPECIE_THRESHOLD : ℚ := 4

section Lemmas

lemma eqModE.refl (a : Conn) : eqModE a a := ⟨rfl, rfl, rfl, rfl⟩

lemma eqModE_disable (a : Conn) : eqModE a.disable a := ⟨rfl, rfl, rfl, rfl⟩

lemma eqModE.inno {a b : Conn} (h : eqModE a b) : a.inno = b.inno := h.1

lemma eqModE_ite (c : Conn) (x : Bool) :
    eqModE (if x = true then c.disable else c) c := by
  cases x
  · exact eqModE.refl c
  · exact eqModE_disable c

/-- `pick_gene` with no optional side returns the base connection up to the
`enabled` flag. -/
lemma pick_gene_none (b : Conn) (rng : RngS) :
    eqModE (pick_gene b none rng).1 b := by
  unfold pick_gene
  dsimp only
  exact eqModE_ite b _

/-- `pick_gene` with both sides present returns one of them up to the
`enabled` flag. -/
lemma pick_gene_some (b o : Conn) (rng : RngS) :
    eqModE (pick_gene b (some o) rng).1 b ∨ eqModE (pick_gene b (some o) rng).1 o := by
  unfold pick_gene
  dsimp only
  cases hq : (happens EvolutionEvent.PickLEQ rng).1 with
  | false =>
    left
    simp only [hq, Bool.false_eq_true, if_false]
    exact eqModE_ite b _
  | true =>
    right
    simp only [hq, if_true]
    exact eqModE_ite o _

/-- The extend arms of `crossover_eq` reproduce their input elementwise up to
`enabled`. -/
lemma mapPick_forall2 (l : List Conn) (rng : RngS) :
    List.Forall₂ eqModE (mapPick l rng).1 l := by
  induction l generalizing rng with
  | nil => exact .nil
  | cons c t ih =>
    simp only [mapPick]
    exact .cons (pick_gene_none c rng) (ih _)

lemma mapPick_map_inno (l : List Conn) (rng : RngS) :
    (mapPick l rng).1.map Conn.inno = l.map Conn.inno := by
  induction l generalizing rng with
  | nil => rfl
  | cons c t ih =>
    simp only [mapPick, List.map_cons]
    exact congrArg₂ _ (pick_gene_none c rng).inno (ih _)

end Lemmas

/-- C6: within one `InnoGen` registry, a second `path` call on the same pair
returns the same ID as the first and leaves `head` where the first call left
it, and the first call advances `head` by one exactly when the pair was not
seen before. -/
theorem innogen_path_idempotent (s : InnoGen) (p : Nat × Nat) :
    ((s.path p).2.path p).1 = (s.path p).1 ∧
    ((s.path p).2.path p).2.head = (s.path p).2.head ∧
    (s.path p).2.head = (if (s.seen.lookup p).isSome then s.head else s.head + 1) := by
  unfold InnoGen.path
  cases h : s.seen.lookup p with
  | some n => simp [h]
  | none => simp [h, List.lookup]

/-- C3: `disjoint_excess_count` on innovation lists `[1,2,6]` and
`[1,3,4,8,10]` returns 4 disjoint and 2 excess (scenario S1 of the spec and
`test_disjoint_excess_count` of src/crossover.rs). -/
theorem disjoint_excess_s1 :
    disjoint_excess_count
      [⟨1, 0, 0, 0, true⟩, ⟨2, 0, 0, 0, true⟩, ⟨6, 0, 0, 0, true⟩]
      [⟨1, 0, 0, 0, true⟩, ⟨3, 0, 0, 0, true⟩, ⟨4, 0, 0, 0, true⟩,
        ⟨8, 0, 0, 0, true⟩, ⟨10, 0, 0, 0, true⟩] = (4, 2) := by
  simp [disjoint_excess_count, dec_go]

lemma dec_go_self (lc : Conn) (lt : List Conn) (d : Nat) :
    dec_go lc lc lt lt d = (d, 0) := by
  induction lt generalizing lc d with
  | nil => simp [dec_go]
  | cons x t ih => simp [dec_go, ih]

lemma disjoint_excess_self (l : List Conn) : disjoint_excess_count l l = (0, 0) := by
  cases l with
  | nil => rfl
  | cons c t => simpa [disjoint_excess_count] using dec_go_self c t 0

lemma param_diff_self (c : Conn) : c.param_diff c = 0 := by
  simp [Conn.param_diff]

lemma apd_go_self (lc : Conn) (lt : List Conn) (d c : ℚ) :
    (apd_go lc lc lt lt d c).1 = d := by
  induction lt generalizing lc d c with
  | nil => simp [apd_go, param_diff_self]
  | cons x t ih => simpa [apd_go, param_diff_self] using ih x d (c + 1)

lemma avg_param_diff_self (l : List Conn) : avg_param_diff l l = 0 := by
  cases l with
  | nil => rfl
  | cons c t =>
    simp only [avg_param_diff]
    split
    · rfl
    · simp [apd_go_self]

/-- C10: the compatibility distance of any connection list with itself is
zero, hence below the speciation threshold: a genome always lands in a
species whose representative is its own connection list. -/
theorem delta_self (l : List Conn) :
    delta l l = 0 ∧ delta l l < SPECIE_THRESHOLD := by
  have h : delta l l = 0 := by
    cases l with
    | nil => simp [delta]
    | cons c t =>
      have hq : ((c :: t : List Conn).length : ℚ) ≠ 0 := by
        have hnn : (0 : ℚ) ≤ (t.length : ℚ) := Nat.cast_nonneg t.length
        simp only [List.length_cons, Nat.cast_add, Nat.cast_one]
        intro hx
        linarith
      simp only [delta, disjoint_excess_self, avg_param_diff_self]
      rw [if_neg (by push_neg; exact ⟨hq, hq⟩)]
      norm_num
  refine ⟨h, ?_⟩
  rw [h]
  norm_num [SPECIE_THRESHOLD]

/-- C8: `CTRConnection::disable` assigns `enabled = true`
(src/genome/recurrent.rs lines 48-50), so after `disable()` the `enabled()`
accessor returns `true`, not `false` as the trait documentation and the spec
require. -/
theorem ctr_disable_sets_enabled_true (c : Conn) :
    (CTRConnection.disable c).enabled = true ∧
      ¬ (CTRConnection.disable c).enabled = false := by
  simp [CTRConnection.disable]

lemma alloc_loop_sum (population : Nat) (scaled total : ℚ) (fits : List ℚ) :
    ∀ acc, acc ≤ population →
      acc + (alloc_loop population scaled total fits acc).sum ≤ population := by
  induction fits with
  | nil =>
    intro acc hacc
    simpa [alloc_loop] using hacc
  | cons fit rest ih =>
    intro acc hacc
    rw [alloc_loop]
    split
    · rename_i hlt
      have h2 := ih (acc + ratToUsize (scaled * fit / total)) (Nat.le_of_lt hlt)
      simp only [List.sum_cons] at h2 ⊢
      omega
    · simp only [List.sum_cons, List.sum_nil]
      omega

/-- C4: the per-species sizes handed out by `population_alloc` never sum to
more than the population target. -/
theorem population_alloc_cap (species : List SpecieM) (population : Nat)
    (top_p : ℚ) (h0 : 0 < top_p) (h1 : top_p ≤ 1) :
    (population_alloc species population top_p).sum ≤ population := by
  have h := alloc_loop_sum population ((population : ℚ) / top_p)
    (((species.map SpecieM.fit_adjusted).mergeSort fun l r => r ≤ l).foldl (· + ·) 0)
    ((species.map SpecieM.fit_adjusted).mergeSort fun l r => r ≤ l)
    0 (Nat.zero_le _)
  simpa [population_alloc] using h

/-- Witness for C4 at a concrete input. -/
theorem population_alloc_cap_w :
    0 < (1 : ℚ) ∧ (1 : ℚ) ≤ 1 ∧ (population_alloc [] 5 1).sum ≤ 5 :=
  ⟨by norm_num, by norm_num, population_alloc_cap [] 5 1 (by norm_num) (by norm_num)⟩

/-- All-zero RNG stream. -/
def rngZero : RngS := ⟨fun _ _ => false, fun _ => 0, 0⟩

/-- A concrete `maybe_mutate` that performs no mutation. -/
def mmIdentity : MutFun := fun g rng ig => .ok (g, rng, ig)

/-- Less fit member of the C5 species. -/
def g0elite : GenomeM := ⟨1, 1, [.Sensory, .Action, .Bias 1], []⟩

/-- Fitter member of the C5 species. -/
def g1elite : GenomeM := ⟨1, 1, [.Sensory, .Action, .Bias 1], [⟨0, 0, 1, 1, true⟩]⟩

/-- C5 is false on the code: with members sorted by fitness descending (the
order `speciate` produces), `Specie::reproduce` clones `members.last()` as
the carried-forward member — the LEAST fit one.  At size 1 the offspring list
is exactly `[least fit]` and does not contain the fittest member `g1elite`. -/
theorem reproduce_clones_least_fit :
    SpecieM.reproduce ⟨[(g1elite, 1), (g0elite, 0)]⟩ 1 (InnoGen.new 0) rngZero
        mmIdentity = .ok ([g0elite], InnoGen.new 0, rngZero) ∧
      g0elite ≠ g1elite :=
  ⟨rfl, by decide⟩

/-- C9 as stated is false: on a genome with no open path,
`mutate_connection` does not signal a recoverable failure — it `panic!`s
(src/genome/recurrent.rs line 173, src/genome/mod.rs line 126).  Concrete
input: the saturated genome of `test_gen_connection_none_possble`. -/
theorem mutate_connection_panics_cex :
    GenomeM.mutate_connection ⟨0, 0, [], [⟨0, 0, 1, 1, true⟩]⟩ rngZero
        (InnoGen.new 0)
      = .panicked "connections on genome are fully saturated" := rfl

/-- An element selected by `choose` is a member of its candidate list. -/
lemma choose_mem {l : List Nat} {rng : RngS} {x : Nat} {rng' : RngS}
    (h : choose l rng = some (x, rng')) : x ∈ l := by
  cases l with
  | nil => exact absurd h (by simp [choose])
  | cons a t =>
    simp only [choose, draw] at h
    have hx : (a :: t).getD (rng.nat rng.i % (a :: t).length) 0 = x :=
      congrArg Prod.fst (Option.some.inj h)
    rw [← hx]
    have hlen : rng.nat rng.i % (a :: t).length < (a :: t).length :=
      Nat.mod_lt _ (by simp)
    rw [List.getD_eq_getElem _ _ hlen]
    exact List.getElem_mem hlen

lemma gen_path_loop_saturated (n : Nat) (conns : List Conn)
    (hsat : ∀ f ∈ List.range n, ∀ t ∈ List.range n,
      ∃ c ∈ conns, c.cfrom = f ∧ c.cto = t) :
    ∀ fuel saturated rng, gen_path_loop n conns saturated rng fuel = none := by
  intro fuel
  induction fuel with
  | zero => intro saturated rng; rfl
  | succ fuel ih =>
    intro saturated rng
    rw [gen_path_loop]
    cases hc : choose ((List.range n).filter fun f => ¬ saturated.contains f) rng with
    | none => rfl
    | some val =>
      obtain ⟨f, rng1⟩ := val
      have hfmem : f ∈ List.range n := List.mem_of_mem_filter (choose_mem hc)
      have hempty : ((List.range n).filter fun t =>
          ¬ (conns.filterMap fun c =>
            if c.cfrom = f then some c.cto else none).contains t) = [] := by
        rw [List.filter_eq_nil_iff]
        intro t ht
        obtain ⟨c, hcmem, hcf, hct⟩ := hsat f hfmem t ht
        have hmem : t ∈ conns.filterMap fun c =>
            if c.cfrom = f then some c.cto else none := by
          rw [List.mem_filterMap]
          exact ⟨c, hcmem, by rw [if_pos hcf, hct]⟩
        simp [hmem]
      simp only [hempty, choose]
      exact ih (f :: saturated) rng1

/-- C9, amended: when every (from, to) pair over the genome's nodes is
already connected, `mutate_connection` panics with
"connections on genome are fully saturated"; the failure is a `panic!`
(fatal abort), not a recoverable error value. -/
theorem mutate_connection_saturated_panics (g : GenomeM) (rng : RngS)
    (ig : InnoGen)
    (hsat : ∀ f ∈ List.range g.nodes.length, ∀ t ∈ List.range g.nodes.length,
      ∃ c ∈ g.connections, c.cfrom = f ∧ c.cto = t) :
    g.mutate_connection rng ig
      = .panicked "connections on genome are fully saturated" := by
  unfold GenomeM.mutate_connection gen_connection_path
  rw [gen_path_loop_saturated _ _ hsat]

/-- Witness for the amended C9 at a fully connected one-node genome. -/
theorem mutate_connection_saturated_panics_w :
    GenomeM.mutate_connection ⟨0, 0, [CTRNode.Internal], [⟨0, 0, 0, 1, true⟩]⟩
        rngZero (InnoGen.new 1)
      = .panicked "connections on genome are fully saturated" :=
  mutate_connection_saturated_panics _ rngZero (InnoGen.new 1) (by decide)

lemma lookup_mem {l : List ((Nat × Nat) × Nat)} {a : Nat × Nat} {b : Nat}
    (h : l.lookup a = some b) : (a, b) ∈ l := by
  induction l with
  | nil => simp [List.lookup] at h
  | cons kv t ih =>
    obtain ⟨k, v⟩ := kv
    rw [List.lookup] at h
    cases hk : (a == k) with
    | true =>
      simp only [hk] at h
      obtain rfl := Option.some.inj h
      have hak : a = k := by simpa using hk
      subst hak
      exact List.mem_cons_self _ _
    | false =>
      simp only [hk] at h
      exact List.mem_cons_of_mem _ (ih h)

/-- Any ID returned by `InnoGen::path` is either the head or a recorded
`seen` value. -/
lemma path_fst_cases (ig : InnoGen) (v : Nat × Nat) :
    (ig.path v).1 = ig.head ∨ ∃ pv ∈ ig.seen, (ig.path v).1 = pv.2 := by
  unfold InnoGen.path
  cases h : ig.seen.lookup v with
  | none => exact .inl rfl
  | some n => exact .inr ⟨(v, n), lookup_mem h, rfl⟩

/-- C7 is false for arbitrary registry states: with a registry whose `seen`
map already holds the open pair `(1,0)` at ID 3, `mutate_connection` on a
genome whose single connection has ID 5 appends ID 3 at the end, breaking
ascending order. -/
theorem mutate_connection_unsorted_cex :
    (GenomeM.mutate_connection
        ⟨1, 1, [CTRNode.Sensory, CTRNode.Action], [⟨5, 0, 1, 1, true⟩]⟩
        ⟨fun _ _ => false, fun i => if i = 0 then 1 else 0, 0⟩
        ⟨6, [((1, 0), 3)]⟩).conns?
      = some [⟨5, 0, 1, 1, true⟩, ⟨3, 1, 0, 1, true⟩] ∧
    ¬ List.Pairwise (fun a b : Conn => a.inno < b.inno)
        [⟨5, 0, 1, 1, true⟩, ⟨3, 1, 0, 1, true⟩] :=
  ⟨rfl, by decide⟩

/-- C7, amended: `mutate_connection` preserves strictly ascending innovation
order (and hence ID distinctness) provided every innovation ID already in the
genome is below the registry's head and below every ID recorded in the
registry's `seen` map — the state a per-generation registry started at
`max inno + 1` is always in. -/
theorem mutate_connection_preserves_sorted (g : GenomeM) (rng : RngS)
    (ig : InnoGen)
    (hg : List.Pairwise (fun a b : Conn => a.inno < b.inno) g.connections)
    (hhead : ∀ c ∈ g.connections, c.inno < ig.head)
    (hseen : ∀ pv ∈ ig.seen, ∀ c ∈ g.connections, c.inno < pv.2) :
    ∀ g' ig' rng', g.mutate_connection rng ig = .ok g' ig' rng' →
      List.Pairwise (fun a b : Conn => a.inno < b.inno) g'.connections ∧
        (g'.connections.map Conn.inno).Nodup := by
  intro g' ig' rng' h
  unfold GenomeM.mutate_connection at h
  cases hp : gen_connection_path g rng with
  | none =>
    rw [hp] at h
    exact absurd h (by simp)
  | some val =>
    obtain ⟨⟨f, t⟩, rng2⟩ := val
    rw [hp] at h
    simp only [MutOut.ok.injEq] at h
    obtain ⟨hgeq, -, -⟩ := h
    have hlt : ∀ c ∈ g.connections, c.inno < (ig.path (f, t)).1 := by
      intro c hcm
      rcases path_fst_cases ig (f, t) with hh | ⟨pv, hpv, hh⟩
      · rw [hh]
        exact hhead c hcm
      · rw [hh]
        exact hseen pv hpv c hcm
    have hpair : List.Pairwise (fun a b : Conn => a.inno < b.inno)
        (g.connections ++ [⟨(ig.path (f, t)).1, f, t, 1, true⟩]) := by
      rw [List.pairwise_append]
      refine ⟨hg, List.pairwise_singleton _ _, ?_⟩
      intro a ha b hb
      rw [List.mem_singleton] at hb
      subst hb
      exact hlt a ha
    subst hgeq
    refine ⟨hpair, ?_⟩
    have hmapped := List.Pairwise.map (S := fun a b : Nat => a < b) Conn.inno
      (fun a b hab => hab) hpair
    exact List.Pairwise.imp Nat.ne_of_lt hmapped

/-- Genome of the C7 witness before mutation. -/
def gW : GenomeM := ⟨1, 1, [.Sensory, .Action], []⟩

/-- Genome of the C7 witness after mutation: one connection `(0,0)` at ID 0. -/
def gWafter : GenomeM := ⟨1, 1, [.Sensory, .Action], [⟨0, 0, 0, 1, true⟩]⟩

/-- Witness for the amended C7 at a concrete genome and fresh registry. -/
theorem mutate_connection_preserves_sorted_w :
    List.Pairwise (fun a b : Conn => a.inno < b.inno) gWafter.connections ∧
      (gWafter.connections.map Conn.inno).Nodup :=
  mutate_connection_preserves_sorted gW rngZero (InnoGen.new 0)
    (by decide) (by decide) (by decide)
    gWafter ⟨1, [((0, 0), 0)]⟩ { rngZero with i := 2 } rfl

lemma pick_gene_none_inno (b : Conn) (rng : RngS) :
    (pick_gene b none rng).1.inno = b.inno := (pick_gene_none b rng).inno

lemma pick_gene_some_inno (b o : Conn) (rng : RngS) (h : o.inno = b.inno) :
    (pick_gene b (some o) rng).1.inno = b.inno := by
  rcases pick_gene_some b o rng with he | he
  · exact he.inno
  · rw [he.inno, h]

lemma forall2_mem {xs ys : List Conn} (h : List.Forall₂ eqModE xs ys) :
    ∀ c ∈ xs, ∃ p ∈ ys, eqModE c p := by
  induction h with
  | nil => intro c hc; exact absurd hc (List.not_mem_nil c)
  | cons hR _ ih =>
    intro c hc
    rcases List.mem_cons.mp hc with rfl | hmem
    · exact ⟨_, List.mem_cons_self _ _, hR⟩
    · obtain ⟨p, hp, he⟩ := ih c hmem
      exact ⟨p, List.mem_cons_of_mem _ hp, he⟩

/-- The child of `crossover_ne` carries exactly the fitter parent's
innovation IDs, in the fitter parent's order. -/
lemma crossover_ne_map_inno (l : List Conn) :
    ∀ r rng, (crossover_ne l r rng).1.map Conn.inno = l.map Conn.inno := by
  induction l with
  | nil => intro r rng; rfl
  | cons lc lt ih =>
    intro r rng
    simp only [crossover_ne]
    cases hd : r.dropWhile fun c => c.inno < lc.inno with
    | nil =>
      simp only [List.map_cons]
      exact congrArg₂ _ (pick_gene_none_inno lc _) (ih _ _)
    | cons rc rest =>
      by_cases hinno : rc.inno = lc.inno
      · simp only [if_pos hinno, List.map_cons]
        exact congrArg₂ _ (pick_gene_some_inno lc rc _ hinno) (ih _ _)
      · simp only [if_neg hinno, List.map_cons]
        exact congrArg₂ _ (pick_gene_none_inno lc _) (ih _ _)

/-- Every child connection of `crossover_ne` matches a fitter-parent
connection up to `enabled`, or a weaker-parent connection with the same
innovation ID up to `enabled`. -/
lemma crossover_ne_mem (l : List Conn) :
    ∀ r rng, ∀ c ∈ (crossover_ne l r rng).1,
      ∃ lc ∈ l, eqModE c lc ∨ ∃ rc ∈ r, rc.inno = lc.inno ∧ eqModE c rc := by
  induction l with
  | nil => intro r rng c hc; exact absurd hc (List.not_mem_nil c)
  | cons lc lt ih =>
    intro r rng c hc
    simp only [crossover_ne] at hc
    have hsub : ∀ x, x ∈ (r.dropWhile fun c => c.inno < lc.inno) → x ∈ r :=
      fun x hx => (List.dropWhile_sublist _).subset hx
    cases hd : r.dropWhile fun c => c.inno < lc.inno with
    | nil =>
      rw [hd] at hc hsub
      rcases List.mem_cons.mp hc with rfl | hmem
      · exact ⟨lc, List.mem_cons_self _ _, .inl (pick_gene_none lc _)⟩
      · obtain ⟨lc', hlc', hor⟩ := ih _ _ c hmem
        refine ⟨lc', List.mem_cons_of_mem _ hlc', ?_⟩
        rcases hor with he | ⟨rc, hrc, hri, he⟩
        · exact .inl he
        · exact absurd hrc (List.not_mem_nil rc)
    | cons rc rest =>
      rw [hd] at hc hsub
      by_cases hinno : rc.inno = lc.inno
      · simp only [if_pos hinno] at hc
        rcases List.mem_cons.mp hc with rfl | hmem
        · refine ⟨lc, List.mem_cons_self _ _, ?_⟩
          rcases pick_gene_some lc rc _ with he | he
          · exact .inl he
          · exact .inr ⟨rc, hsub rc (List.mem_cons_self _ _), hinno, he⟩
        · obtain ⟨lc', hlc', hor⟩ := ih _ _ c hmem
          refine ⟨lc', List.mem_cons_of_mem _ hlc', ?_⟩
          rcases hor with he | ⟨rc', hrc', hri, he⟩
          · exact .inl he
          · exact .inr ⟨rc', hsub rc' hrc', hri, he⟩
      · simp only [if_neg hinno] at hc
        rcases List.mem_cons.mp hc with rfl | hmem
        · exact ⟨lc, List.mem_cons_self _ _, .inl (pick_gene_none lc _)⟩
        · obtain ⟨lc', hlc', hor⟩ := ih _ _ c hmem
          refine ⟨lc', List.mem_cons_of_mem _ hlc', ?_⟩
          rcases hor with he | ⟨rc', hrc', hri, he⟩
          · exact .inl he
          · exact .inr ⟨rc', hsub rc' hrc', hri, he⟩

lemma pairwise_inno_of_map_eq {xs ys : List Conn}
    (hmap : xs.map Conn.inno = ys.map Conn.inno)
    (hy : List.Pairwise (fun a b : Conn => a.inno < b.inno) ys) :
    List.Pairwise (fun a b : Conn => a.inno < b.inno) xs := by
  have h1 := List.Pairwise.map (S := fun a b : Nat => a < b) Conn.inno
    (fun a b h => h) hy
  rw [← hmap] at h1
  exact List.pairwise_map.mp h1

lemma mergeSort_inno_of_pairwise {xs : List Conn}
    (h : List.Pairwise (fun a b : Conn => a.inno < b.inno) xs) :
    (xs.mergeSort fun a b => a.inno ≤ b.inno) = xs := by
  apply List.mergeSort_of_sorted
  refine h.imp fun hab => ?_
  simp only [decide_eq_true_eq]
  exact Nat.le_of_lt hab

/-- C2, amended: under an unequal fitness ordering, the child's innovation
IDs are exactly the fitter parent's (in order), and every child connection
equals — up to its `enabled` flag — either a fitter-parent connection or a
weaker-parent connection sharing its innovation ID.  (The flag qualifier is
needed even for IDs only the fitter parent has: `pick_gene` may disable the
copy via `NewDisabled` or `KeepDisabled`.) -/
theorem crossover_ne_topology (l r : List Conn) (rng : RngS) (ord : Ordering)
    (hne : ord ≠ .eq)
    (hl : List.Pairwise (fun a b : Conn => a.inno < b.inno) l)
    (hr : List.Pairwise (fun a b : Conn => a.inno < b.inno) r) :
    ((crossover l r ord rng).1.map Conn.inno
        = (if ord = .gt then l else r).map Conn.inno) ∧
      ∀ c ∈ (crossover l r ord rng).1,
        ∃ fc ∈ (if ord = .gt then l else r), eqModE c fc ∨
          ∃ wc ∈ (if ord = .gt then r else l), wc.inno = fc.inno ∧ eqModE c wc := by
  cases ord with
  | eq => exact absurd rfl hne
  | gt =>
    simp only [crossover, reduceCtorEq, if_true, reduceIte]
    rw [mergeSort_inno_of_pairwise
      (pairwise_inno_of_map_eq (crossover_ne_map_inno l r rng) hl)]
    exact ⟨crossover_ne_map_inno l r rng, crossover_ne_mem l r rng⟩
  | lt =>
    simp only [crossover, reduceCtorEq, if_false, reduceIte]
    rw [mergeSort_inno_of_pairwise
      (pairwise_inno_of_map_eq (crossover_ne_map_inno r l rng) hr)]
    exact ⟨crossover_ne_map_inno r l rng, crossover_ne_mem r l rng⟩

/-- Witness for the amended C2 at concrete parents and RNG. -/
theorem crossover_ne_topology_w :
    (Ordering.gt ≠ Ordering.eq) ∧
      (((crossover [⟨0, 0, 1, 1, true⟩, ⟨2, 1, 0, 1, true⟩] [⟨2, 0, 1, 2, true⟩]
          .gt rngZero).1.map Conn.inno)
        = (if Ordering.gt = Ordering.gt then
            [⟨0, 0, 1, 1, true⟩, ⟨2, 1, 0, 1, true⟩]
          else [⟨2, 0, 1, 2, true⟩]).map Conn.inno) ∧
      ∀ c ∈ (crossover [⟨0, 0, 1, 1, true⟩, ⟨2, 1, 0, 1, true⟩]
          [⟨2, 0, 1, 2, true⟩] .gt rngZero).1,
        ∃ fc ∈ (if Ordering.gt = Ordering.gt then
            [⟨0, 0, 1, 1, true⟩, ⟨2, 1, 0, 1, true⟩]
          else [⟨2, 0, 1, 2, true⟩]), eqModE c fc ∨
          ∃ wc ∈ (if Ordering.gt = Ordering.gt then [⟨2, 0, 1, 2, true⟩]
            else [⟨0, 0, 1, 1, true⟩, ⟨2, 1, 0, 1, true⟩]),
            wc.inno = fc.inno ∧ eqModE c wc :=
  ⟨by decide,
    (crossover_ne_topology [⟨0, 0, 1, 1, true⟩, ⟨2, 1, 0, 1, true⟩]
      [⟨2, 0, 1, 2, true⟩] rngZero .gt (by decide) (by decide) (by decide)).1,
    (crossover_ne_topology [⟨0, 0, 1, 1, true⟩, ⟨2, 1, 0, 1, true⟩]
      [⟨2, 0, 1, 2, true⟩] rngZero .gt (by decide) (by decide) (by decide)).2⟩

/-- C2 as stated is false in its "copied" part: with fitter parent
`[{inno 0, from 1, to 2, weight 1, enabled}]`, weaker parent empty, and an
RNG whose `NewDisabled` draw fires, the child's connection at the
fitter-only ID 0 is the fitter connection with its enabled flag flipped —
not a copy of it. -/
theorem crossover_ne_not_verbatim_cex :
    (crossover [⟨0, 1, 2, 1, true⟩] [] .gt ⟨fun _ _ => true, fun _ => 0, 0⟩).1
        = [⟨0, 1, 2, 1, false⟩] ∧
      (⟨0, 1, 2, 1, false⟩ : Conn) ≠ ⟨0, 1, 2, 1, true⟩ := by
  constructor
  · simp [crossover, crossover_ne, pick_gene, happens, Conn.disable,
      List.mergeSort_singleton]
  · decide

/-- Every child connection of `crossover_eq` matches some parent connection
up to `enabled`. -/
lemma crossover_eq_mem (l r : List Conn) (rng : RngS) :
    ∀ c ∈ (crossover_eq l r rng).1, ∃ p, (p ∈ l ∨ p ∈ r) ∧ eqModE c p := by
  induction l, r, rng using crossover_eq.induct with
  | case1 rng =>
    intro c hc
    rw [crossover_eq] at hc
    exact absurd hc (List.not_mem_nil c)
  | case2 head tail rng =>
    intro c hc
    rw [crossover_eq] at hc
    obtain ⟨p, hp, he⟩ := forall2_mem (mapPick_forall2 (head :: tail) rng) c hc
    exact ⟨p, .inr hp, he⟩
  | case3 head tail rng =>
    intro c hc
    rw [crossover_eq] at hc
    obtain ⟨p, hp, he⟩ := forall2_mem (mapPick_forall2 (head :: tail) rng) c hc
    exact ⟨p, .inl hp, he⟩
  | case4 lc lt rc rt rng heq pk ih =>
    intro c hc
    rw [crossover_eq] at hc
    simp only [if_pos heq] at hc
    rcases List.mem_cons.mp hc with rfl | hmem
    · rcases pick_gene_some lc rc _ with he | he
      · exact ⟨lc, .inl (List.mem_cons_self _ _), he⟩
      · exact ⟨rc, .inr (List.mem_cons_self _ _), he⟩
    · obtain ⟨p, hp, he⟩ := ih c hmem
      rcases hp with hp | hp
      · exact ⟨p, .inl (List.mem_cons_of_mem _ hp), he⟩
      · exact ⟨p, .inr (List.mem_cons_of_mem _ hp), he⟩
  | case5 lc lt rc rt rng hne hlt pk ih =>
    intro c hc
    rw [crossover_eq] at hc
    simp only [if_neg hne, if_pos hlt] at hc
    rcases List.mem_cons.mp hc with rfl | hmem
    · exact ⟨lc, .inl (List.mem_cons_self _ _), pick_gene_none lc _⟩
    · obtain ⟨p, hp, he⟩ := ih c hmem
      rcases hp with hp | hp
      · exact ⟨p, .inl (List.mem_cons_of_mem _ hp), he⟩
      · exact ⟨p, .inr hp, he⟩
  | case6 lc lt rc rt rng hne hge pk ih =>
    intro c hc
    rw [crossover_eq] at hc
    simp only [if_neg hne, if_neg hge] at hc
    rcases List.mem_cons.mp hc with rfl | hmem
    · exact ⟨rc, .inr (List.mem_cons_self _ _), pick_gene_none rc _⟩
    · obtain ⟨p, hp, he⟩ := ih c hmem
      rcases hp with hp | hp
      · exact ⟨p, .inl hp, he⟩
      · exact ⟨p, .inr (List.mem_cons_of_mem _ hp), he⟩

/-- The child of `crossover_eq` carries exactly the union of the parents'
innovation IDs. -/
lemma crossover_eq_inno_mem (l r : List Conn) (rng : RngS) :
    ∀ i, i ∈ (crossover_eq l r rng).1.map Conn.inno ↔
      i ∈ l.map Conn.inno ∨ i ∈ r.map Conn.inno := by
  induction l, r, rng using crossover_eq.induct with
  | case1 rng => simp [crossover_eq]
  | case2 head tail rng =>
    intro i
    rw [crossover_eq, mapPick_map_inno]
    simp
  | case3 head tail rng =>
    intro i
    rw [crossover_eq, mapPick_map_inno]
    simp
  | case4 lc lt rc rt rng heq pk ih =>
    intro i
    rw [crossover_eq]
    simp only [if_pos heq, List.map_cons, List.mem_cons,
      pick_gene_some_inno lc rc _ heq.symm]
    rw [ih i, ← heq]
    tauto
  | case5 lc lt rc rt rng hne hlt pk ih =>
    intro i
    rw [crossover_eq]
    simp only [if_neg hne, if_pos hlt, List.map_cons, List.mem_cons,
      pick_gene_none_inno lc _]
    rw [ih i]
    simp only [List.map_cons, List.mem_cons]
    tauto
  | case6 lc lt rc rt rng hne hge pk ih =>
    intro i
    rw [crossover_eq]
    simp only [if_neg hne, if_neg hge, List.map_cons, List.mem_cons,
      pick_gene_none_inno rc _]
    rw [ih i]
    simp only [List.map_cons, List.mem_cons]
    tauto

/-- When both parents are strictly sorted by innovation ID, so is the child
of `crossover_eq`. -/
lemma crossover_eq_sorted (l r : List Conn) (rng : RngS) :
    List.Pairwise (fun a b : Conn => a.inno < b.inno) l →
    List.Pairwise (fun a b : Conn => a.inno < b.inno) r →
    List.Pairwise (fun a b : Conn => a.inno < b.inno) (crossover_eq l r rng).1 := by
  induction l, r, rng using crossover_eq.induct with
  | case1 rng =>
    intro _ _
    rw [crossover_eq]
    exact List.Pairwise.nil
  | case2 head tail rng =>
    intro _ hr
    rw [crossover_eq]
    exact pairwise_inno_of_map_eq (mapPick_map_inno _ _) hr
  | case3 head tail rng =>
    intro hl _
    rw [crossover_eq]
    exact pairwise_inno_of_map_eq (mapPick_map_inno _ _) hl
  | case4 lc lt rc rt rng heq pk ih =>
    intro hl hr
    obtain ⟨hl1, hl2⟩ := List.pairwise_cons.mp hl
    obtain ⟨hr1, hr2⟩ := List.pairwise_cons.mp hr
    rw [crossover_eq]
    simp only [if_pos heq]
    rw [List.pairwise_cons]
    refine ⟨?_, ih hl2 hr2⟩
    intro x hx
    rw [pick_gene_some_inno lc rc _ heq.symm]
    have hxi := (crossover_eq_inno_mem lt rt _ x.inno).mp
      (List.mem_map_of_mem Conn.inno hx)
    rcases hxi with hx1 | hx2
    · obtain ⟨b, hb, hbe⟩ := List.mem_map.mp hx1
      rw [← hbe]
      exact hl1 b hb
    · obtain ⟨b, hb, hbe⟩ := List.mem_map.mp hx2
      rw [← hbe, heq]
      exact hr1 b hb
  | case5 lc lt rc rt rng hne hlt pk ih =>
    intro hl hr
    obtain ⟨hl1, hl2⟩ := List.pairwise_cons.mp hl
    rw [crossover_eq]
    simp only [if_neg hne, if_pos hlt]
    rw [List.pairwise_cons]
    refine ⟨?_, ih hl2 hr⟩
    intro x hx
    rw [pick_gene_none_inno lc _]
    have hxi := (crossover_eq_inno_mem lt (rc :: rt) _ x.inno).mp
      (List.mem_map_of_mem Conn.inno hx)
    rcases hxi with hx1 | hx2
    · obtain ⟨b, hb, hbe⟩ := List.mem_map.mp hx1
      rw [← hbe]
      exact hl1 b hb
    · obtain ⟨b, hb, hbe⟩ := List.mem_map.mp hx2
      rcases List.mem_cons.mp hb with rfl | hbt
      · rw [← hbe]
        exact hlt
      · rw [← hbe]
        exact Nat.lt_trans hlt ((List.pairwise_cons.mp hr).1 b hbt)
  | case6 lc lt rc rt rng hne hge pk ih =>
    intro hl hr
    obtain ⟨hr1, hr2⟩ := List.pairwise_cons.mp hr
    rw [crossover_eq]
    simp only [if_neg hne, if_neg hge]
    rw [List.pairwise_cons]
    refine ⟨?_, ih hl hr2⟩
    intro x hx
    rw [pick_gene_none_inno rc _]
    have hgt : rc.inno < lc.inno :=
      Nat.lt_of_le_of_ne (Nat.le_of_not_lt hge) fun hx => hne hx.symm
    have hxi := (crossover_eq_inno_mem (lc :: lt) rt _ x.inno).mp
      (List.mem_map_of_mem Conn.inno hx)
    rcases hxi with hx1 | hx2
    · obtain ⟨b, hb, hbe⟩ := List.mem_map.mp hx1
      rcases List.mem_cons.mp hb with rfl | hbt
      · rw [← hbe]
        exact hgt
      · rw [← hbe]
        exact Nat.lt_trans hgt ((List.pairwise_cons.mp hl).1 b hbt)
    · obtain ⟨b, hb, hbe⟩ := List.mem_map.mp hx2
      rw [← hbe]
      exact hr1 b hb

/-- C1: under equal fitness, the child's innovation-ID set is the union of
the parents' sets, the child is sorted ascending by innovation ID, and every
child connection equals some parent connection up to its `enabled` flag. -/
theorem crossover_eq_topology (l r : List Conn) (rng : RngS)
    (hl : List.Pairwise (fun a b : Conn => a.inno < b.inno) l)
    (hr : List.Pairwise (fun a b : Conn => a.inno < b.inno) r) :
    (∀ i, i ∈ (crossover l r .eq rng).1.map Conn.inno ↔
        i ∈ l.map Conn.inno ∨ i ∈ r.map Conn.inno) ∧
      List.Pairwise (fun a b : Conn => a.inno < b.inno) (crossover l r .eq rng).1 ∧
      ∀ c ∈ (crossover l r .eq rng).1, ∃ p, (p ∈ l ∨ p ∈ r) ∧ eqModE c p := by
  have hs := crossover_eq_sorted l r rng hl hr
  simp only [crossover]
  rw [mergeSort_inno_of_pairwise hs]
  exact ⟨crossover_eq_inno_mem l r rng, hs, crossover_eq_mem l r rng⟩

/-- Witness for C1 at concrete parents and RNG. -/
theorem crossover_eq_topology_w :
    (∀ i, i ∈ (crossover [⟨0, 0, 1, 1, true⟩, ⟨2, 1, 0, 1, true⟩]
          [⟨1, 0, 1, 2, true⟩] .eq rngZero).1.map Conn.inno ↔
        i ∈ ([⟨0, 0, 1, 1, true⟩, ⟨2, 1, 0, 1, true⟩] : List Conn).map Conn.inno ∨
        i ∈ ([⟨1, 0, 1, 2, true⟩] : List Conn).map Conn.inno) ∧
      List.Pairwise (fun a b : Conn => a.inno < b.inno)
        (crossover [⟨0, 0, 1, 1, true⟩, ⟨2, 1, 0, 1, true⟩]
          [⟨1, 0, 1, 2, true⟩] .eq rngZero).1 ∧
      ∀ c ∈ (crossover [⟨0, 0, 1, 1, true⟩, ⟨2, 1, 0, 1, true⟩]
          [⟨1, 0, 1, 2, true⟩] .eq rngZero).1,
        ∃ p, (p ∈ ([⟨0, 0, 1, 1, true⟩, ⟨2, 1, 0, 1, true⟩] : List Conn) ∨
          p ∈ ([⟨1, 0, 1, 2, true⟩] : List Conn)) ∧ eqModE c p :=
  crossover_eq_topology [⟨0, 0, 1, 1, true⟩, ⟨2, 1, 0, 1, true⟩]
    [⟨1, 0, 1, 2, true⟩] rngZero (by decide) (by decide)

end Brain
